import Mathlib

/-!
Verification of the OptiFeat knapsack feature selector
(`src/optifeat/optimization/knapsack_selector.py`).

The Python module is embedded shallowly: Python `float` values become `ℚ`
(exact rational arithmetic), Python `int` becomes `ℤ`, list indices become
`ℕ`.  `int(x)` on a float is truncation toward zero (`ratTrunc`), and the
Python floor division `//` is `Int.fdiv`.
-/

namespace OptiFeat

/-- `FeatureCandidate`: a feature with a name, a value (accuracy) and a cost
in milliseconds.  Mirrors the Python dataclass. -/
structure FeatureCandidate where
  name : String
  value : ℚ
  cost_ms : ℤ
  deriving Repr, DecidableEq, Inhabited

/-- `KnapsackResult`: the record returned by `KnapsackSelector.select`. -/
structure KnapsackResult where
  selected_features : List String
  total_value : ℚ
  total_cost_ms : ℤ
  deriving Repr, DecidableEq

/-- `KnapsackResult.total_cost_seconds`: `total_cost_ms / 1000.0`. -/
def KnapsackResult.total_cost_seconds (r : KnapsackResult) : ℚ :=
  (r.total_cost_ms : ℚ) / 1000

/-- Python `int(q)` on a real number: truncation toward zero. -/
def ratTrunc (q : ℚ) : ℤ :=
  if 0 ≤ q then ⌊q⌋ else ⌈q⌉

/-- The constructor coercion `self.time_unit_ms = max(1, int(time_unit_ms))`
from `KnapsackSelector.__init__`. -/
def effectiveUnit (time_unit_ms : ℤ) : ℕ :=
  (max 1 time_unit_ms).toNat

/-- `capacity_units = max(int(self.time_budget * 1000) // self.time_unit_ms, 0)`
from `KnapsackSelector.select`. -/
def capacityUnits (time_budget : ℚ) (unit : ℕ) : ℕ :=
  (max ((ratTrunc (time_budget * 1000)).fdiv (unit : ℤ)) 0).toNat

/-- A candidate's discretized weight:
`max(1, math.ceil(candidate.cost_ms / self.time_unit_ms))`. -/
def unitWeight (unit : ℕ) (c : FeatureCandidate) : ℕ :=
  (max 1 ⌈(c.cost_ms : ℚ) / (unit : ℚ)⌉).toNat

/-- The DP table of `KnapsackSelector.select`: `dpTable weights values i w`
is `dp[i][w]`.  The code sets `dp[i][w] = dp[i-1][w]` and overwrites it with
`dp[i-1][w - weight] + value` only when the candidate fits and the new value
is strictly greater. -/
def dpTable (weights : List ℕ) (values : List ℚ) : ℕ → ℕ → ℚ
  | 0, _ => 0
  | i + 1, w =>
    let prev := dpTable weights values i w
    let wi := weights.getD i 0
    if wi ≤ w then
      let cand := dpTable weights values i (w - wi) + values.getD i 0
      if prev < cand then cand else prev
    else prev

/-- The backward reconstruction loop of `KnapsackSelector.select`: traverses
`i` from `n` down to `1`; whenever `dp[i][w] != dp[i-1][w]` the candidate
`i-1` (0-based) is recorded, its original `cost_ms` accumulated, and its
weight subtracted from `w`.  Returns the names in visit (reverse) order
together with the accumulated cost; `select` reverses the name list. -/
def reconstructAux (cands : List FeatureCandidate) (weights : List ℕ)
    (values : List ℚ) : ℕ → ℕ → List String × ℤ
  | 0, _ => ([], 0)
  | i + 1, w =>
    if dpTable weights values (i + 1) w ≠ dpTable weights values i w then
      let c := cands.getD i default
      let rest := reconstructAux cands weights values i (w - weights.getD i 0)
      (c.name :: rest.1, c.cost_ms + rest.2)
    else reconstructAux cands weights values i w

/-- `KnapsackSelector.select`, the whole method: the selector is constructed
with `time_budget` and `time_unit_ms` and `select` is applied to the
candidate list. -/
def select (time_budget : ℚ) (time_unit_ms : ℤ)
    (candidates : List FeatureCandidate) : KnapsackResult :=
  let unit := effectiveUnit time_unit_ms
  if candidates.isEmpty then
    { selected_features := [], total_value := 0, total_cost_ms := 0 }
  else
    let cap := capacityUnits time_budget unit
    if cap = 0 then
      { selected_features := [], total_value := 0, total_cost_ms := 0 }
    else
      let weights := candidates.map (unitWeight unit)
      let values := candidates.map FeatureCandidate.value
      let n := candidates.length
      let r := reconstructAux candidates weights values n cap
      { selected_features := r.1.reverse
        total_value := dpTable weights values n cap
        total_cost_ms := r.2 }

/-! ### Proof-side reformulations

`selList` re-expresses the reconstruction loop as the list of selected
candidates (in original order); `dpList` re-expresses the DP table as a
structural recursion over (weight, value) pairs, which is convenient for
induction.  Both are proved equal to the embedded code. -/

/-- The candidates selected by the reconstruction loop, listed in original
(input) order. -/
def selList (cands : List FeatureCandidate) (weights : List ℕ)
    (values : List ℚ) : ℕ → ℕ → List FeatureCandidate
  | 0, _ => []
  | i + 1, w =>
    if dpTable weights values (i + 1) w ≠ dpTable weights values i w then
      selList cands weights values i (w - weights.getD i 0) ++ [cands.getD i default]
    else selList cands weights values i w

/-- The DP value as a structural recursion over the (weight, value) pairs of
the remaining candidates. -/
def dpList : List (ℕ × ℚ) → ℕ → ℚ
  | [], _ => 0
  | p :: rest, w =>
    if p.1 ≤ w then max (dpList rest w) (dpList rest (w - p.1) + p.2)
    else dpList rest w

/-- Spec-side DP recurrence, following the specification text:
`dp[i][w] = dp[i-1][w]` if candidate `i` does not fit (`weight_i > w`), else
`max(dp[i-1][w], dp[i-1][w-weight_i] + value_i)`, with `dp[0][w] = 0`. -/
def specDp (weights : List ℕ) (values : List ℚ) : ℕ → ℕ → ℚ
  | 0, _ => 0
  | i + 1, w =>
    if w < weights.getD i 0 then specDp weights values i w
    else
      max (specDp weights values i w)
        (specDp weights values i (w - weights.getD i 0) + values.getD i 0)

/-- Spec-side reconstruction, following the specification text: traverse `i`
from `n` down to `1`; whenever `dp[i][w] != dp[i-1][w]` candidate `i` was
included — record its name, subtract its weight from `w` and continue; the
recorded names are returned in original candidate order. -/
def specReconstruct (cands : List FeatureCandidate) (weights : List ℕ)
    (values : List ℚ) : ℕ → ℕ → List String
  | 0, _ => []
  | i + 1, w =>
    if specDp weights values (i + 1) w ≠ specDp weights values i w then
      specReconstruct cands weights values i (w - weights.getD i 0) ++
        [(cands.getD i default).name]
    else specReconstruct cands weights values i w

/-! ### Basic lemmas about the DP table -/

theorem dpTable_succ (weights : List ℕ) (values : List ℚ) (i w : ℕ) :
    dpTable weights values (i + 1) w =
      if weights.getD i 0 ≤ w then
        max (dpTable weights values i w)
          (dpTable weights values i (w - weights.getD i 0) + values.getD i 0)
      else dpTable weights values i w := by
  show (let prev := dpTable weights values i w
        let wi := weights.getD i 0
        if wi ≤ w then
          let cand := dpTable weights values i (w - wi) + values.getD i 0
          if prev < cand then cand else prev
        else prev) = _
  simp only []
  split
  · rcases lt_or_le (dpTable weights values i w)
      (dpTable weights values i (w - weights.getD i 0) + values.getD i 0) with h | h
    · rw [if_pos h, max_eq_right h.le]
    · rw [if_neg (not_lt.mpr h), max_eq_left h]
  · rfl

theorem dpTable_prev_le (weights : List ℕ) (values : List ℚ) (i w : ℕ) :
    dpTable weights values i w ≤ dpTable weights values (i + 1) w := by
  rw [dpTable_succ]
  split
  · exact le_max_left _ _
  · exact le_rfl

/-- If row `i+1` differs from row `i` at column `w`, then candidate `i` fits,
the new value is the inclusion value, and including candidate `i` strictly
increases the DP value. -/
theorem dpTable_ne_step (weights : List ℕ) (values : List ℚ) (i w : ℕ)
    (h : dpTable weights values (i + 1) w ≠ dpTable weights values i w) :
    weights.getD i 0 ≤ w ∧
      dpTable weights values (i + 1) w =
        dpTable weights values i (w - weights.getD i 0) + values.getD i 0 ∧
      dpTable weights values i w <
        dpTable weights values i (w - weights.getD i 0) + values.getD i 0 := by
  rw [dpTable_succ] at h ⊢
  by_cases hfit : weights.getD i 0 ≤ w
  · rw [if_pos hfit] at h ⊢
    rcases le_or_lt (dpTable weights values i (w - weights.getD i 0) + values.getD i 0)
      (dpTable weights values i w) with hle | hlt
    · exact absurd (max_eq_left hle) h
    · exact ⟨hfit, max_eq_right hlt.le, hlt⟩
  · rw [if_neg hfit] at h
    exact absurd rfl h

/-! ### The DP table equals the structural DP over reversed item prefixes -/

theorem dpTable_eq_dpList (weights : List ℕ) (values : List ℚ)
    (hlen : weights.length = values.length) :
    ∀ i, i ≤ weights.length → ∀ w,
      dpTable weights values i w = dpList (((weights.zip values).take i).reverse) w := by
  intro i
  induction i with
  | zero => intro _ w; simp [dpTable, dpList]
  | succ i ih =>
    intro hi w
    have hi' : i < weights.length := hi
    have hiz : i < (weights.zip values).length := by
      rw [List.length_zip, hlen, min_self, ← hlen]; exact hi'
    have hstep : ((weights.zip values).take (i + 1)).reverse =
        (weights[i], values[i]) :: ((weights.zip values).take i).reverse := by
      rw [List.take_succ, List.getElem?_eq_getElem hiz, List.getElem_zip]
      simp
    rw [hstep, dpTable_succ]
    have hwgetD : weights.getD i 0 = weights[i] := List.getD_eq_getElem _ _ hi'
    have hvgetD : values.getD i 0 = values[i] := by
      have : i < values.length := hlen ▸ hi'
      exact List.getD_eq_getElem _ _ this
    show _ = dpList ((weights[i], values[i]) :: ((weights.zip values).take i).reverse) w
    rw [show dpList ((weights[i], values[i]) :: ((weights.zip values).take i).reverse) w =
        if weights[i] ≤ w then
          max (dpList (((weights.zip values).take i).reverse) w)
            (dpList (((weights.zip values).take i).reverse) (w - weights[i]) + values[i])
        else dpList (((weights.zip values).take i).reverse) w from rfl]
    rw [hwgetD, hvgetD, ih (Nat.le_of_succ_le hi), ih (Nat.le_of_succ_le hi)]

/-! ### Optimality of the structural DP -/

theorem dpList_le_cons (p : ℕ × ℚ) (rest : List (ℕ × ℚ)) (w : ℕ) :
    dpList rest w ≤ dpList (p :: rest) w := by
  show dpList rest w ≤ if p.1 ≤ w then _ else dpList rest w
  split
  · exact le_max_left _ _
  · exact le_rfl

/-- Every feasible selection's value is bounded by the DP value. -/
theorem sum_le_dpList (items : List (ℕ × ℚ)) : ∀ (cap : ℕ) (S : List (ℕ × ℚ)),
    S.Sublist items → (S.map Prod.fst).sum ≤ cap →
    (S.map Prod.snd).sum ≤ dpList items cap := by
  induction items with
  | nil =>
    intro cap S hS _
    rw [List.sublist_nil.mp hS]
    simp [dpList]
  | cons p rest ih =>
    intro cap S hS hw
    cases hS with
    | cons _ h =>
      exact le_trans (ih cap S h hw) (dpList_le_cons p rest cap)
    | cons₂ _ h =>
      rename_i S₁
      have hw' : (S₁.map Prod.fst).sum + p.1 ≤ cap := by
        simpa [Nat.add_comm] using hw
      have hfit : p.1 ≤ cap :=
        le_trans (Nat.le_add_left _ _) hw'
      have hw₁ : (S₁.map Prod.fst).sum ≤ cap - p.1 := Nat.le_sub_of_add_le hw'
      have hv₁ : (S₁.map Prod.snd).sum ≤ dpList rest (cap - p.1) := ih _ S₁ h hw₁
      have : ((p :: S₁).map Prod.snd).sum ≤ dpList rest (cap - p.1) + p.2 := by
        simp only [List.map_cons, List.sum_cons]
        rw [add_comm]
        exact add_le_add hv₁ le_rfl
      refine le_trans this ?_
      show _ ≤ dpList (p :: rest) cap
      rw [show dpList (p :: rest) cap =
          if p.1 ≤ cap then max (dpList rest cap) (dpList rest (cap - p.1) + p.2)
          else dpList rest cap from rfl, if_pos hfit]
      exact le_max_right _ _

/-- The DP value is achieved by some feasible selection. -/
theorem dpList_exists (items : List (ℕ × ℚ)) : ∀ cap : ℕ,
    ∃ S : List (ℕ × ℚ), S.Sublist items ∧ (S.map Prod.fst).sum ≤ cap ∧
      (S.map Prod.snd).sum = dpList items cap := by
  induction items with
  | nil => intro cap; exact ⟨[], List.Sublist.refl _, by simp, by simp [dpList]⟩
  | cons p rest ih =>
    intro cap
    have hunfold : dpList (p :: rest) cap =
        if p.1 ≤ cap then max (dpList rest cap) (dpList rest (cap - p.1) + p.2)
        else dpList rest cap := rfl
    by_cases hfit : p.1 ≤ cap
    · rcases le_total (dpList rest (cap - p.1) + p.2) (dpList rest cap) with hBA | hAB
      · obtain ⟨S, hS, hw, hv⟩ := ih cap
        exact ⟨S, hS.cons p, hw, by rw [hunfold, if_pos hfit, max_eq_left hBA]; exact hv⟩
      · obtain ⟨S₁, hS₁, hw₁, hv₁⟩ := ih (cap - p.1)
        refine ⟨p :: S₁, hS₁.cons₂ p, ?_, ?_⟩
        · simp only [List.map_cons, List.sum_cons]
          calc p.1 + (S₁.map Prod.fst).sum ≤ p.1 + (cap - p.1) := by
                exact Nat.add_le_add_left hw₁ _
            _ = cap := Nat.add_sub_cancel' hfit
        · simp only [List.map_cons, List.sum_cons]
          rw [hunfold, if_pos hfit, max_eq_right hAB, ← hv₁, add_comm]
    · obtain ⟨S, hS, hw, hv⟩ := ih cap
      exact ⟨S, hS.cons p, hw, by rw [hunfold, if_neg hfit]; exact hv⟩

/-! ### The reconstruction loop, re-expressed through `selList` -/

theorem reconstructAux_fst (cands : List FeatureCandidate) (weights : List ℕ)
    (values : List ℚ) : ∀ i w,
    (reconstructAux cands weights values i w).1 =
      ((selList cands weights values i w).map FeatureCandidate.name).reverse := by
  intro i
  induction i with
  | zero => intro w; simp [reconstructAux, selList]
  | succ i ih =>
    intro w
    show (if dpTable weights values (i + 1) w ≠ dpTable weights values i w then _
        else reconstructAux cands weights values i w).1 = _
    rw [show selList cands weights values (i + 1) w =
        if dpTable weights values (i + 1) w ≠ dpTable weights values i w then
          selList cands weights values i (w - weights.getD i 0) ++ [cands.getD i default]
        else selList cands weights values i w from rfl]
    split
    · simp [ih]
    · exact ih w

theorem reconstructAux_snd (cands : List FeatureCandidate) (weights : List ℕ)
    (values : List ℚ) : ∀ i w,
    (reconstructAux cands weights values i w).2 =
      ((selList cands weights values i w).map FeatureCandidate.cost_ms).sum := by
  intro i
  induction i with
  | zero => intro w; simp [reconstructAux, selList]
  | succ i ih =>
    intro w
    show (if dpTable weights values (i + 1) w ≠ dpTable weights values i w then _
        else reconstructAux cands weights values i w).2 = _
    rw [show selList cands weights values (i + 1) w =
        if dpTable weights values (i + 1) w ≠ dpTable weights values i w then
          selList cands weights values i (w - weights.getD i 0) ++ [cands.getD i default]
        else selList cands weights values i w from rfl]
    split
    · simp [ih, add_comm]
    · exact ih w

theorem selList_sublist_take (cands : List FeatureCandidate) (weights : List ℕ)
    (values : List ℚ) : ∀ i, i ≤ cands.length → ∀ w,
    (selList cands weights values i w).Sublist (cands.take i) := by
  intro i
  induction i with
  | zero => intro _ w; simp [selList]
  | succ i ih =>
    intro hi w
    have hi' : i < cands.length := hi
    have htake : cands.take (i + 1) = cands.take i ++ [cands[i]] := by
      rw [List.take_succ, List.getElem?_eq_getElem hi']
      rfl
    rw [show selList cands weights values (i + 1) w =
        if dpTable weights values (i + 1) w ≠ dpTable weights values i w then
          selList cands weights values i (w - weights.getD i 0) ++ [cands.getD i default]
        else selList cands weights values i w from rfl]
    split
    · rw [htake, List.getD_eq_getElem _ _ hi']
      exact (ih (Nat.le_of_succ_le hi) _).append (List.Sublist.refl _)
    · refine (ih (Nat.le_of_succ_le hi) w).trans ?_
      have : cands.take i = (cands.take (i + 1)).take i := by
        rw [List.take_take, min_eq_left (Nat.le_succ i)]
      rw [this]
      exact List.take_sublist _ _

/-- Along the reconstruction, the selected discretized weights fit in `w` and
the selected values add up exactly to the DP entry. -/
theorem selList_weight_value (cands : List FeatureCandidate) (unit : ℕ)
    (weights : List ℕ) (values : List ℚ)
    (hws : weights = cands.map (unitWeight unit))
    (hvs : values = cands.map FeatureCandidate.value) :
    ∀ i, i ≤ cands.length → ∀ w,
      ((selList cands weights values i w).map (unitWeight unit)).sum ≤ w ∧
      ((selList cands weights values i w).map FeatureCandidate.value).sum =
        dpTable weights values i w := by
  intro i
  induction i with
  | zero => intro _ w; simp [selList, dpTable]
  | succ i ih =>
    intro hi w
    have hi' : i < cands.length := hi
    have hwgetD : weights.getD i 0 = unitWeight unit cands[i] := by
      rw [hws, List.getD_eq_getElem _ _ (by simpa using hi'), List.getElem_map]
    have hvgetD : values.getD i 0 = cands[i].value := by
      rw [hvs, List.getD_eq_getElem _ _ (by simpa using hi'), List.getElem_map]
    have hgetD : cands.getD i default = cands[i] := List.getD_eq_getElem _ _ hi'
    rw [show selList cands weights values (i + 1) w =
        if dpTable weights values (i + 1) w ≠ dpTable weights values i w then
          selList cands weights values i (w - weights.getD i 0) ++ [cands.getD i default]
        else selList cands weights values i w from rfl]
    split
    · rename_i hne
      obtain ⟨hfit, heq, _⟩ := dpTable_ne_step weights values i w hne
      obtain ⟨ihw, ihv⟩ := ih (Nat.le_of_succ_le hi) (w - weights.getD i 0)
      constructor
      · rw [List.map_append, List.sum_append, hgetD]
        simp only [List.map_cons, List.map_nil, List.sum_cons, List.sum_nil, add_zero]
        calc ((selList cands weights values i (w - weights.getD i 0)).map
                (unitWeight unit)).sum + unitWeight unit cands[i]
            ≤ (w - weights.getD i 0) + weights.getD i 0 := by
              rw [hwgetD]; exact Nat.add_le_add_right (hwgetD ▸ ihw) _
          _ = w := Nat.sub_add_cancel hfit
      · rw [List.map_append, List.sum_append, hgetD, heq]
        simp only [List.map_cons, List.map_nil, List.sum_cons, List.sum_nil, add_zero]
        rw [ihv, hvgetD]
    · rename_i hne
      have heq : dpTable weights values (i + 1) w = dpTable weights values i w := by
        by_contra h; exact hne h
      obtain ⟨ihw, ihv⟩ := ih (Nat.le_of_succ_le hi) w
      exact ⟨ihw, by rw [ihv, heq]⟩

/-- On a non-empty candidate list with non-zero capacity, `select` returns
exactly the DP value and the reconstructed selection. -/
theorem select_eq_main (tb : ℚ) (tm : ℤ) (c : FeatureCandidate)
    (cs : List FeatureCandidate)
    (hcap : capacityUnits tb (effectiveUnit tm) ≠ 0) :
    select tb tm (c :: cs) =
      { selected_features :=
          (reconstructAux (c :: cs) ((c :: cs).map (unitWeight (effectiveUnit tm)))
            ((c :: cs).map FeatureCandidate.value) (c :: cs).length
            (capacityUnits tb (effectiveUnit tm))).1.reverse
        total_value :=
          dpTable ((c :: cs).map (unitWeight (effectiveUnit tm)))
            ((c :: cs).map FeatureCandidate.value) (c :: cs).length
            (capacityUnits tb (effectiveUnit tm))
        total_cost_ms :=
          (reconstructAux (c :: cs) ((c :: cs).map (unitWeight (effectiveUnit tm)))
            ((c :: cs).map FeatureCandidate.value) (c :: cs).length
            (capacityUnits tb (effectiveUnit tm))).2 } := by
  simp only [select, List.isEmpty_cons, Bool.false_eq_true, if_false, if_neg hcap]

/-- Master characterization of `select`: the returned record is generated by
an in-order selection `S` of the candidates that fits the capacity, whose
values add up to `total_value` and whose original costs add up to
`total_cost_ms`. -/
theorem select_spec (tb : ℚ) (tm : ℤ) (cands : List FeatureCandidate) :
    ∃ S : List FeatureCandidate, S.Sublist cands ∧
      (select tb tm cands).selected_features = S.map FeatureCandidate.name ∧
      (S.map (unitWeight (effectiveUnit tm))).sum ≤ capacityUnits tb (effectiveUnit tm) ∧
      (S.map FeatureCandidate.value).sum = (select tb tm cands).total_value ∧
      (S.map FeatureCandidate.cost_ms).sum = (select tb tm cands).total_cost_ms := by
  rcases cands with _ | ⟨c, cs⟩
  · exact ⟨[], List.Sublist.refl _, by simp [select], by simp, by simp [select], by simp [select]⟩
  · by_cases hcap : capacityUnits tb (effectiveUnit tm) = 0
    · refine ⟨[], List.nil_sublist _, ?_, by simp [hcap], ?_, ?_⟩
      · simp [select, hcap]
      · simp [select, hcap]
      · simp [select, hcap]
    · have hsel := select_eq_main tb tm c cs hcap
      refine ⟨selList (c :: cs) ((c :: cs).map (unitWeight (effectiveUnit tm)))
          ((c :: cs).map FeatureCandidate.value) (c :: cs).length
          (capacityUnits tb (effectiveUnit tm)), ?_, ?_, ?_, ?_, ?_⟩
      · simpa using selList_sublist_take (c :: cs) _ _ (c :: cs).length le_rfl _
      · rw [hsel]
        simp only [reconstructAux_fst, List.reverse_reverse]
      · exact (selList_weight_value (c :: cs) (effectiveUnit tm) _ _ rfl rfl
          (c :: cs).length le_rfl _).1
      · rw [hsel]
        exact (selList_weight_value (c :: cs) (effectiveUnit tm) _ _ rfl rfl
          (c :: cs).length le_rfl _).2
      · rw [hsel]
        exact (reconstructAux_snd (c :: cs) _ _ (c :: cs).length _).symm

/-! ### Optimality of the DP value over candidate sublists -/

theorem zip_weights_values (cands : List FeatureCandidate) (unit : ℕ) :
    (cands.map (unitWeight unit)).zip (cands.map FeatureCandidate.value) =
      cands.map fun c => (unitWeight unit c, c.value) :=
  List.zip_map' _ _ _

theorem one_le_unitWeight (unit : ℕ) (c : FeatureCandidate) :
    1 ≤ unitWeight unit c := by
  have h1 : ((1 : ℤ)).toNat ≤ (max 1 ⌈(c.cost_ms : ℚ) / (unit : ℚ)⌉).toNat :=
    Int.toNat_le_toNat (le_max_left _ _)
  simpa [unitWeight] using h1

/-- Upper bound: any in-order selection that fits in `cap` is dominated by
the final DP entry. -/
theorem sum_value_le_dpTable (cands : List FeatureCandidate) (unit cap : ℕ)
    (S : List FeatureCandidate) (hS : S.Sublist cands)
    (hw : (S.map (unitWeight unit)).sum ≤ cap) :
    (S.map FeatureCandidate.value).sum ≤
      dpTable (cands.map (unitWeight unit)) (cands.map FeatureCandidate.value)
        cands.length cap := by
  have hlen : (cands.map (unitWeight unit)).length =
      (cands.map FeatureCandidate.value).length := by simp
  have hbridge := dpTable_eq_dpList (cands.map (unitWeight unit))
    (cands.map FeatureCandidate.value) hlen cands.length (by simp) cap
  have htake : (((cands.map (unitWeight unit)).zip
      (cands.map FeatureCandidate.value)).take cands.length) =
      (cands.map (unitWeight unit)).zip (cands.map FeatureCandidate.value) := by
    apply List.take_of_length_le
    simp [List.length_zip]
  rw [hbridge, htake, zip_weights_values]
  have hsub : ((S.map fun c => (unitWeight unit c, c.value)).reverse).Sublist
      ((cands.map fun c => (unitWeight unit c, c.value)).reverse) :=
    (hS.map _).reverse
  have := sum_le_dpList ((cands.map fun c => (unitWeight unit c, c.value)).reverse) cap
    ((S.map fun c => (unitWeight unit c, c.value)).reverse) hsub
    (by
      rw [List.map_reverse, List.sum_reverse, List.map_map]
      simpa using hw)
  rw [List.map_reverse, List.sum_reverse, List.map_map] at this
  simpa using this

/-- The final DP entry is realized by some in-order selection fitting `cap`. -/
theorem dpTable_achieved (cands : List FeatureCandidate) (unit cap : ℕ) :
    ∃ S : List FeatureCandidate, S.Sublist cands ∧
      (S.map (unitWeight unit)).sum ≤ cap ∧
      (S.map FeatureCandidate.value).sum =
        dpTable (cands.map (unitWeight unit)) (cands.map FeatureCandidate.value)
          cands.length cap := by
  have hlen : (cands.map (unitWeight unit)).length =
      (cands.map FeatureCandidate.value).length := by simp
  have hbridge := dpTable_eq_dpList (cands.map (unitWeight unit))
    (cands.map FeatureCandidate.value) hlen cands.length (by simp) cap
  have htake : (((cands.map (unitWeight unit)).zip
      (cands.map FeatureCandidate.value)).take cands.length) =
      (cands.map (unitWeight unit)).zip (cands.map FeatureCandidate.value) := by
    apply List.take_of_length_le
    simp [List.length_zip]
  rw [hbridge, htake, zip_weights_values]
  obtain ⟨T, hT, hTw, hTv⟩ :=
    dpList_exists ((cands.map fun c => (unitWeight unit c, c.value)).reverse) cap
  have hT' : T.reverse.Sublist (cands.map fun c => (unitWeight unit c, c.value)) := by
    simpa using hT.reverse
  obtain ⟨S, hS, hmap⟩ := List.sublist_map_iff.mp hT'
  refine ⟨S, hS, ?_, ?_⟩
  · have : ((T.reverse.map Prod.fst).sum : ℕ) ≤ cap := by
      rw [← List.sum_reverse, ← List.map_reverse, List.reverse_reverse]
      exact hTw
    rw [hmap, List.map_map] at this
    simpa using this
  · have : ((T.reverse.map Prod.snd).sum : ℚ) =
        dpList ((cands.map fun c => (unitWeight unit c, c.value)).reverse) cap := by
      rw [← List.sum_reverse, ← List.map_reverse, List.reverse_reverse]
      exact hTv
    rw [hmap, List.map_map] at this
    simpa using this

theorem length_le_sum_of_one_le : ∀ l : List ℕ, (∀ x ∈ l, 1 ≤ x) → l.length ≤ l.sum := by
  intro l
  induction l with
  | nil => intro _; simp
  | cons x xs ih =>
    intro h
    simp only [List.length_cons, List.sum_cons]
    have hx : 1 ≤ x := h x (List.mem_cons_self _ _)
    have := ih fun y hy => h y (List.mem_cons_of_mem _ hy)
    omega

/-! ### Degenerate budgets and the capacity formula -/

theorem capacityUnits_eq_zero (tb : ℚ) (unit : ℕ) (h : tb ≤ 0) :
    capacityUnits tb unit = 0 := by
  unfold capacityUnits
  rw [Int.toNat_eq_zero]
  refine max_le ?_ le_rfl
  have hq : tb * 1000 ≤ 0 := by
    calc tb * 1000 ≤ 0 * 1000 := mul_le_mul_of_nonneg_right h (by norm_num)
      _ = 0 := by ring
  have htr : ratTrunc (tb * 1000) ≤ 0 := by
    unfold ratTrunc
    split
    · calc ⌊tb * 1000⌋ ≤ ⌊(0 : ℚ)⌋ := Int.floor_le_floor hq
        _ = 0 := Int.floor_zero
    · exact Int.ceil_le.mpr (by exact_mod_cast hq)
  rcases Nat.eq_zero_or_pos unit with h0 | hpos
  · simp [h0]
  · rw [Int.fdiv_eq_ediv _ (by exact_mod_cast Nat.zero_le unit)]
    calc ratTrunc (tb * 1000) / (unit : ℤ) ≤ 0 / (unit : ℤ) :=
        Int.ediv_le_ediv (by exact_mod_cast hpos) htr
      _ = 0 := Int.zero_ediv _

/-- Dividing by a positive natural number commutes with the integer floor. -/
theorem floor_div_natCast (q : ℚ) (n : ℕ) (hn : 0 < n) :
    ⌊q / (n : ℚ)⌋ = ⌊q⌋ / (n : ℤ) := by
  have hn' : (0 : ℤ) < (n : ℤ) := by exact_mod_cast hn
  have hnq : (0 : ℚ) < (n : ℚ) := by exact_mod_cast hn
  apply le_antisymm
  · rw [Int.le_ediv_iff_mul_le hn', Int.le_floor]
    push_cast
    calc (⌊q / (n : ℚ)⌋ : ℚ) * n ≤ q / n * n :=
        mul_le_mul_of_nonneg_right (Int.floor_le _) hnq.le
      _ = q := div_mul_cancel₀ q hnq.ne'
  · rw [Int.le_floor, le_div_iff hnq]
    have hmul : ⌊q⌋ / (n : ℤ) * (n : ℤ) ≤ ⌊q⌋ := Int.ediv_mul_le _ hn'.ne'
    calc ((⌊q⌋ / (n : ℤ) : ℤ) : ℚ) * (n : ℚ)
        = ((⌊q⌋ / (n : ℤ) * (n : ℤ) : ℤ) : ℚ) := by push_cast; ring
      _ ≤ (⌊q⌋ : ℚ) := by exact_mod_cast hmul
      _ ≤ q := Int.floor_le q

/-! ### The spec recurrence agrees with the code -/

theorem specDp_eq_dpTable (weights : List ℕ) (values : List ℚ) :
    ∀ i w, specDp weights values i w = dpTable weights values i w := by
  intro i
  induction i with
  | zero => intro w; rfl
  | succ i ih =>
    intro w
    rw [dpTable_succ]
    show (if w < weights.getD i 0 then specDp weights values i w
        else max (specDp weights values i w)
          (specDp weights values i (w - weights.getD i 0) + values.getD i 0)) = _
    by_cases hfit : weights.getD i 0 ≤ w
    · rw [if_neg (not_lt.mpr hfit), if_pos hfit, ih, ih]
    · rw [if_pos (not_le.mp hfit), if_neg hfit, ih]

theorem specReconstruct_eq_selList (cands : List FeatureCandidate)
    (weights : List ℕ) (values : List ℚ) : ∀ i w,
    specReconstruct cands weights values i w =
      (selList cands weights values i w).map FeatureCandidate.name := by
  intro i
  induction i with
  | zero => intro w; rfl
  | succ i ih =>
    intro w
    show (if specDp weights values (i + 1) w ≠ specDp weights values i w then
        specReconstruct cands weights values i (w - weights.getD i 0) ++
          [(cands.getD i default).name]
      else specReconstruct cands weights values i w) = _
    rw [show selList cands weights values (i + 1) w =
        if dpTable weights values (i + 1) w ≠ dpTable weights values i w then
          selList cands weights values i (w - weights.getD i 0) ++ [cands.getD i default]
        else selList cands weights values i w from rfl]
    rw [specDp_eq_dpTable, specDp_eq_dpTable]
    split
    · rw [List.map_append, ih]
      rfl
    · exact ih w

/-- With weights coming from `unitWeight` (all positive), a zero capacity
selects nothing. -/
theorem selList_zero_cap (cands : List FeatureCandidate) (unit : ℕ)
    (weights : List ℕ) (values : List ℚ)
    (hws : weights = cands.map (unitWeight unit)) :
    ∀ i, i ≤ cands.length → selList cands weights values i 0 = [] := by
  intro i
  induction i with
  | zero => intro _; rfl
  | succ i ih =>
    intro hi
    have hi' : i < cands.length := hi
    rw [show selList cands weights values (i + 1) 0 =
        if dpTable weights values (i + 1) 0 ≠ dpTable weights values i 0 then
          selList cands weights values i (0 - weights.getD i 0) ++ [cands.getD i default]
        else selList cands weights values i 0 from rfl]
    rw [if_neg ?hne]
    · exact ih (Nat.le_of_succ_le hi)
    case hne =>
      intro hne
      obtain ⟨hfit, _, _⟩ := dpTable_ne_step weights values i 0 hne
      have h1 : 1 ≤ weights.getD i 0 := by
        rw [hws, List.getD_eq_getElem _ _ (by simpa using hi'), List.getElem_map]
        exact one_le_unitWeight _ _
      omega

/-! ### Claim theorems -/

/-- Claim C2: the selection returned by `select` names an in-order sublist of
the candidates whose discretized weights sum to at most `capacity_units`. -/
theorem select_capacity_respected (tb : ℚ) (tm : ℤ)
    (cands : List FeatureCandidate) :
    ∃ S : List FeatureCandidate, S.Sublist cands ∧
      (select tb tm cands).selected_features = S.map FeatureCandidate.name ∧
      (S.map (unitWeight (effectiveUnit tm))).sum ≤
        capacityUnits tb (effectiveUnit tm) := by
  obtain ⟨S, h1, h2, h3, _, _⟩ := select_spec tb tm cands
  exact ⟨S, h1, h2, h3⟩

/-- Claim C5: `selected_features` lists the chosen candidates' names in the
same relative order as the input sequence (they form a sublist). -/
theorem select_order_preservation (tb : ℚ) (tm : ℤ)
    (cands : List FeatureCandidate) :
    ∃ S : List FeatureCandidate, S.Sublist cands ∧
      (select tb tm cands).selected_features = S.map FeatureCandidate.name := by
  obtain ⟨S, h1, h2, _, _, _⟩ := select_spec tb tm cands
  exact ⟨S, h1, h2⟩

/-- Claim C7: `total_cost_ms` is the exact sum of the original `cost_ms`
values of the selected candidates. -/
theorem select_cost_accounting (tb : ℚ) (tm : ℤ)
    (cands : List FeatureCandidate) :
    ∃ S : List FeatureCandidate, S.Sublist cands ∧
      (select tb tm cands).selected_features = S.map FeatureCandidate.name ∧
      (select tb tm cands).total_cost_ms = (S.map FeatureCandidate.cost_ms).sum := by
  obtain ⟨S, h1, h2, _, _, h5⟩ := select_spec tb tm cands
  exact ⟨S, h1, h2, h5.symm⟩

/-- Claim C4: the empty candidate list yields the empty result, and a zero or
negative `time_budget` yields the empty result for every candidate list
(the embedding is total, so no path raises). -/
theorem select_degenerate (tb : ℚ) (tm : ℤ) (cands : List FeatureCandidate) :
    select tb tm [] =
      { selected_features := [], total_value := 0, total_cost_ms := 0 } ∧
    (tb ≤ 0 → select tb tm cands =
      { selected_features := [], total_value := 0, total_cost_ms := 0 }) := by
  constructor
  · rfl
  · intro h
    rcases cands with _ | ⟨c, cs⟩
    · rfl
    · have hcap := capacityUnits_eq_zero tb (effectiveUnit tm) h
      simp [select, hcap]

/-- Claim C10: the constructor clamps `time_unit_ms` to at least one unit, so
the effective unit is always positive (no division by zero) and `select`
behaves as if called with `max 1 time_unit_ms`. -/
theorem select_unit_clamped (tb : ℚ) (tm : ℤ) (cands : List FeatureCandidate) :
    0 < effectiveUnit tm ∧ select tb tm cands = select tb (max 1 tm) cands := by
  constructor
  · have h1 : ((1 : ℤ)).toNat ≤ (max 1 tm).toNat := Int.toNat_le_toNat (le_max_left _ _)
    simpa [effectiveUnit] using h1
  · have h : effectiveUnit (max 1 tm) = effectiveUnit tm := by
      unfold effectiveUnit
      rw [← max_assoc, max_self]
    simp only [select, h]

/-- Claim C1: `total_value` is the optimal 0/1 knapsack value: it dominates
every in-order selection of candidates whose discretized weights fit in
`capacity_units`, and it is attained by one such selection. -/
theorem select_totalValue_optimal (tb : ℚ) (tm : ℤ)
    (cands : List FeatureCandidate) :
    (∀ S : List FeatureCandidate, S.Sublist cands →
      (S.map (unitWeight (effectiveUnit tm))).sum ≤
        capacityUnits tb (effectiveUnit tm) →
      (S.map FeatureCandidate.value).sum ≤ (select tb tm cands).total_value) ∧
    (∃ S : List FeatureCandidate, S.Sublist cands ∧
      (S.map (unitWeight (effectiveUnit tm))).sum ≤
        capacityUnits tb (effectiveUnit tm) ∧
      (S.map FeatureCandidate.value).sum = (select tb tm cands).total_value) := by
  constructor
  · intro S hS hw
    rcases cands with _ | ⟨c, cs⟩
    · rw [List.sublist_nil.mp hS]
      simp [select]
    · by_cases hcap : capacityUnits tb (effectiveUnit tm) = 0
      · rcases S with _ | ⟨s, ss⟩
        · simp [select, hcap]
        · exfalso
          rw [hcap] at hw
          have h1 : 1 ≤ unitWeight (effectiveUnit tm) s := one_le_unitWeight _ _
          simp only [List.map_cons, List.sum_cons] at hw
          omega
      · rw [select_eq_main tb tm c cs hcap]
        exact sum_value_le_dpTable (c :: cs) (effectiveUnit tm) _ S hS hw
  · obtain ⟨S, h1, _, h3, h4, _⟩ := select_spec tb tm cands
    exact ⟨S, h1, h3, h4⟩

/-- Claim C6: every discretized weight is at least one unit (a zero-cost
candidate still consumes a unit), so with `capacity_units = 1` at most one
candidate is ever selected. -/
theorem select_min_weight_floor (tb : ℚ) (tm : ℤ)
    (cands : List FeatureCandidate) (c : FeatureCandidate) :
    1 ≤ unitWeight (effectiveUnit tm) c ∧
    (capacityUnits tb (effectiveUnit tm) = 1 →
      (select tb tm cands).selected_features.length ≤ 1) := by
  refine ⟨one_le_unitWeight _ c, fun hcap => ?_⟩
  obtain ⟨S, _, hsel, hw, _, _⟩ := select_spec tb tm cands
  rw [hsel, List.length_map]
  have hlen : S.length ≤ (S.map (unitWeight (effectiveUnit tm))).sum := by
    have hmem : ∀ x ∈ S.map (unitWeight (effectiveUnit tm)), 1 ≤ x := by
      intro x hx
      obtain ⟨s, _, rfl⟩ := List.mem_map.mp hx
      exact one_le_unitWeight _ _
    simpa using length_le_sum_of_one_le _ hmem
  calc S.length ≤ (S.map (unitWeight (effectiveUnit tm))).sum := hlen
    _ ≤ 1 := hcap ▸ hw

/-- Claim C8: for a unit `time_unit_ms ≥ 1`, the capacity computed by the
code (`int(time_budget * 1000) // time_unit_ms`, clamped to `≥ 0`) equals
`floor(time_budget * 1000 / time_unit_ms)` for non-negative budgets, and is
`0` for negative budgets. -/
theorem capacityUnits_formula (tb : ℚ) (tm : ℤ) (h1 : 1 ≤ tm) :
    (0 ≤ tb → (capacityUnits tb (effectiveUnit tm) : ℤ) =
      ⌊tb * 1000 / (tm : ℚ)⌋) ∧
    (tb < 0 → capacityUnits tb (effectiveUnit tm) = 0) := by
  have htm0 : (0 : ℤ) < tm := h1
  have hu : ((effectiveUnit tm : ℕ) : ℤ) = tm := by
    unfold effectiveUnit
    rw [max_eq_right h1]
    exact Int.toNat_of_nonneg htm0.le
  have hn : 0 < effectiveUnit tm := by
    have h2 : (0 : ℤ) < ((effectiveUnit tm : ℕ) : ℤ) := by rw [hu]; exact htm0
    exact_mod_cast h2
  constructor
  · intro htb
    have hq : (0 : ℚ) ≤ tb * 1000 := by positivity
    have htr : ratTrunc (tb * 1000) = ⌊tb * 1000⌋ := if_pos hq
    have hfl0 : (0 : ℤ) ≤ ⌊tb * 1000⌋ := Int.floor_nonneg.mpr hq
    have hdiv0 : (0 : ℤ) ≤ ⌊tb * 1000⌋ / tm := Int.ediv_nonneg hfl0 htm0.le
    have hfloor : ⌊tb * 1000 / (tm : ℚ)⌋ = ⌊tb * 1000⌋ / tm := by
      have hcast : ((effectiveUnit tm : ℕ) : ℚ) = (tm : ℚ) := by exact_mod_cast hu
      have := floor_div_natCast (tb * 1000) (effectiveUnit tm) hn
      rw [hcast, hu] at this
      exact this
    unfold capacityUnits
    rw [htr, Int.fdiv_eq_ediv _ (by exact_mod_cast Nat.zero_le (effectiveUnit tm)), hu,
      hfloor, max_eq_left hdiv0, Int.toNat_of_nonneg hdiv0]
  · intro htb
    exact capacityUnits_eq_zero tb _ htb.le

/-- Claim C3: `select` returns exactly the subset produced by the spec's
recurrence and backward reconstruction; a candidate is included only when
inclusion strictly increases the DP value, so on ties the later-indexed
candidate is excluded (witnessed by two identical candidates, where the
earlier one is chosen). -/
theorem select_tie_break :
    (∀ (tb : ℚ) (tm : ℤ) (cands : List FeatureCandidate),
      (select tb tm cands).selected_features =
        specReconstruct cands (cands.map (unitWeight (effectiveUnit tm)))
          (cands.map FeatureCandidate.value) cands.length
          (capacityUnits tb (effectiveUnit tm))) ∧
    (∀ (weights : List ℕ) (values : List ℚ) (i w : ℕ),
      dpTable weights values (i + 1) w ≠ dpTable weights values i w →
      dpTable weights values i w <
        dpTable weights values i (w - weights.getD i 0) + values.getD i 0) ∧
    (select 1 1000 [⟨"early", 1, 1000⟩, ⟨"late", 1, 1000⟩]).selected_features =
      ["early"] := by
  refine ⟨?_, ?_, ?_⟩
  · intro tb tm cands
    rcases cands with _ | ⟨c, cs⟩
    · rfl
    · by_cases hcap : capacityUnits tb (effectiveUnit tm) = 0
      · rw [hcap, specReconstruct_eq_selList,
          selList_zero_cap (c :: cs) (effectiveUnit tm) _ _ rfl _ le_rfl]
        simp [select, hcap]
      · rw [select_eq_main tb tm c cs hcap, specReconstruct_eq_selList]
        simp only [reconstructAux_fst, List.reverse_reverse]
  · intro ws vs i w hne
    exact (dpTable_ne_step ws vs i w hne).2.2
  · have hu : effectiveUnit 1000 = 1000 := by decide
    have hcap : capacityUnits 1 1000 = 1 := by
      norm_num [capacityUnits, ratTrunc]
    have hw : [⟨"early", 1, 1000⟩, (⟨"late", 1, 1000⟩ : FeatureCandidate)].map
        (unitWeight 1000) = [1, 1] := by
      norm_num [unitWeight, List.map]
    have hv : [⟨"early", 1, 1000⟩, (⟨"late", 1, 1000⟩ : FeatureCandidate)].map
        FeatureCandidate.value = [1, 1] := rfl
    simp only [select, hu, hcap, hw, hv, List.isEmpty_cons, Bool.false_eq_true,
      if_false, List.length_cons, List.length_nil]
    norm_num [reconstructAux, dpTable]

/-- Claim C9: the worked example: candidates A (0.9, 100ms), B (0.5, 50ms),
C (0.7, 80ms) with a 0.1s budget at 10ms granularity give capacity 10,
weights [10, 5, 8], and `select` picks exactly A with value 0.9 and cost
100ms. -/
theorem select_worked_example :
    capacityUnits (1/10) (effectiveUnit 10) = 10 ∧
    [⟨"A", 9/10, 100⟩, ⟨"B", 1/2, 50⟩, (⟨"C", 7/10, 80⟩ : FeatureCandidate)].map
      (unitWeight (effectiveUnit 10)) = [10, 5, 8] ∧
    select (1/10) 10 [⟨"A", 9/10, 100⟩, ⟨"B", 1/2, 50⟩, ⟨"C", 7/10, 80⟩] =
      { selected_features := ["A"], total_value := 9/10, total_cost_ms := 100 } := by
  have hu : effectiveUnit 10 = 10 := by decide
  have hcap : capacityUnits (1/10) 10 = 10 := by
    norm_num [capacityUnits, ratTrunc]
    decide
  have hw : [⟨"A", 9/10, 100⟩, ⟨"B", 1/2, 50⟩, (⟨"C", 7/10, 80⟩ : FeatureCandidate)].map
      (unitWeight 10) = [10, 5, 8] := by
    norm_num [unitWeight, List.map]
    decide
  have hv : [⟨"A", 9/10, 100⟩, ⟨"B", 1/2, 50⟩, (⟨"C", 7/10, 80⟩ : FeatureCandidate)].map
      FeatureCandidate.value = [9/10, 1/2, 7/10] := rfl
  refine ⟨by rw [hu]; exact hcap, by rw [hu]; exact hw, ?_⟩
  simp only [select, hu, hcap, hw, hv, List.isEmpty_cons, Bool.false_eq_true,
    if_false, List.length_cons, List.length_nil]
  norm_num [reconstructAux, dpTable]

/-! ### Concrete evaluation helpers for the witnesses -/

theorem evalCap_example : capacityUnits (1/10) (effectiveUnit 10) = 10 := by
  have hu : effectiveUnit 10 = 10 := by decide
  rw [hu]
  norm_num [capacityUnits, ratTrunc]
  decide

theorem evalFits_example :
    ([(⟨"A", 9/10, 100⟩ : FeatureCandidate)].map (unitWeight (effectiveUnit 10))).sum ≤
      capacityUnits (1/10) (effectiveUnit 10) := by
  rw [evalCap_example]
  have hu : effectiveUnit 10 = 10 := by decide
  rw [hu]
  norm_num [unitWeight]

theorem evalDp_ne :
    dpTable [1] [1] (0 + 1) 1 ≠ dpTable [1] [1] 0 1 := by
  norm_num [dpTable]

theorem evalCap_one : capacityUnits (1/1000) (effectiveUnit 1) = 1 := by
  have hu : effectiveUnit 1 = 1 := by decide
  rw [hu]
  norm_num [capacityUnits, ratTrunc]

theorem evalNeg_budget : (-5 : ℚ) ≤ 0 := by norm_num

theorem evalBudget_nonneg : (0 : ℚ) ≤ 1/10 := by norm_num

/-! ### Witnesses -/

/-- Witness for C1 at the worked example: the feasible selection [A] is
dominated by the returned `total_value`. -/
theorem select_totalValue_optimal_witness :
    ([(⟨"A", 9/10, 100⟩ : FeatureCandidate)].map FeatureCandidate.value).sum ≤
      (select (1/10) 10
        [⟨"A", 9/10, 100⟩, ⟨"B", 1/2, 50⟩, ⟨"C", 7/10, 80⟩]).total_value :=
  (select_totalValue_optimal (1/10) 10
      [⟨"A", 9/10, 100⟩, ⟨"B", 1/2, 50⟩, ⟨"C", 7/10, 80⟩]).1
    [⟨"A", 9/10, 100⟩]
    ((List.nil_sublist [⟨"B", 1/2, 50⟩, ⟨"C", 7/10, 80⟩]).cons₂ _)
    evalFits_example

/-- Witness for C3 at a concrete table: a changed DP row entails a strict
improvement. -/
theorem select_tie_break_witness :
    dpTable [1] [1] 0 1 <
      dpTable [1] [1] 0 (1 - List.getD [1] 0 0) + List.getD [1] 0 0 :=
  select_tie_break.2.1 [1] [1] 0 1 evalDp_ne

/-- Witness for C4 at a concrete negative budget. -/
theorem select_degenerate_witness :
    select (-5) 1 [⟨"f", 1, 10⟩] =
      { selected_features := [], total_value := 0, total_cost_ms := 0 } :=
  (select_degenerate (-5) 1 [⟨"f", 1, 10⟩]).2 evalNeg_budget

/-- Witness for C6: with capacity exactly one unit and three zero-cost
candidates, at most one is selected. -/
theorem select_min_weight_floor_witness :
    (select (1/1000) 1
      [⟨"z1", 1, 0⟩, ⟨"z2", 1, 0⟩, ⟨"z3", 1, 0⟩]).selected_features.length ≤ 1 :=
  (select_min_weight_floor (1/1000) 1
      [⟨"z1", 1, 0⟩, ⟨"z2", 1, 0⟩, ⟨"z3", 1, 0⟩] ⟨"z1", 1, 0⟩).2 evalCap_one

/-- Witness for C8 at the worked example's budget and unit. -/
theorem capacityUnits_formula_witness :
    (capacityUnits (1/10) (effectiveUnit 10) : ℤ) = ⌊(1/10 : ℚ) * 1000 / (10 : ℚ)⌋ :=
  (capacityUnits_formula (1/10) 10 (by decide)).1 evalBudget_nonneg

end OptiFeat
